import Mathlib

/-!
Verification of the BoltDB-backed key-value store layer of iotex-core
(`db/kvstore_impl.go` in the sources): a shallow embedding of the engine
operations (`Get`, `Filter`, `Range`, `WriteBatch`) and of the sparse
range-index operations (`Insert`, `Remove`, `Purge`, `SeekNext`, `SeekPrev`),
together with theorems checking the natural-language specification.

A bolt bucket is modelled as an association list of (key, value) byte
strings kept sorted in strictly increasing lexicographic key order; a
cursor `Seek(k)` then corresponds to dropping the entries whose key is
below `k`, `Next` to moving along the list, and `Prev` to the last entry
of the dropped prefix.
-/

/-- Byte strings (Go `[]byte`): lists of naturals, each byte below 256 where
it matters. -/
abbrev Bytes := List Nat

/-- Lexicographic strict order on byte strings, matching Go
`bytes.Compare(a, b) == -1`: a proper initial segment is smaller. -/
def bLt : Bytes → Bytes → Bool
  | [], [] => false
  | [], _ :: _ => true
  | _ :: _, [] => false
  | a :: as, b :: bs => if a < b then true else if b < a then false else bLt as bs

/-- Strictly-increasing key order of a bucket representation: the invariant a
bolt bucket maintains for its (key, value) entries. -/
def SortedB (l : List (Bytes × Bytes)) : Prop :=
  l.Pairwise (fun e1 e2 => bLt e1.1 e2.1 = true)

/-- Bucket get: `bucket.Get(key)` returns the stored value, or nil. -/
def entryLookup : List (Bytes × Bytes) → Bytes → Option Bytes
  | [], _ => none
  | (k1, v1) :: rest, k => if k1 = k then some v1 else entryLookup rest k

/-- Bucket put: `bucket.Put(key, value)` inserts or overwrites, keeping the
entries in key order. -/
def putEntry : List (Bytes × Bytes) → Bytes → Bytes → List (Bytes × Bytes)
  | [], k, v => [(k, v)]
  | (k1, v1) :: rest, k, v =>
    if bLt k k1 then (k, v) :: (k1, v1) :: rest
    else if k = k1 then (k, v) :: rest
    else (k1, v1) :: putEntry rest k v

/-- Bucket delete: `bucket.Delete(key)` removes the entry if present. -/
def deleteEntry : List (Bytes × Bytes) → Bytes → List (Bytes × Bytes)
  | [], _ => []
  | (k1, v1) :: rest, k => if k1 = k then rest else (k1, v1) :: deleteEntry rest k

/-- Cursor seek: `cursor.Seek(k)` positions at the first entry whose key is at
or after `k`; on the sorted representation this is the suffix starting there,
whose head is the entry the cursor returns and whose tail is what `Next`
iterates over. -/
def dropBefore (k : Bytes) : List (Bytes × Bytes) → List (Bytes × Bytes)
  | [] => []
  | (k1, v1) :: rest => if bLt k1 k then dropBefore k rest else (k1, v1) :: rest

/-- The entries strictly before the seek position of `k`; `cursor.Prev` after
`cursor.Seek(k)` returns the last of these (or nil if there is none). -/
def takeBefore (k : Bytes) : List (Bytes × Bytes) → List (Bytes × Bytes)
  | [] => []
  | (k1, v1) :: rest => if bLt k1 k then (k1, v1) :: takeBefore k rest else []

/-- Error kinds surfaced by the engine (`ErrDBNotStarted`, `ErrNotExist`,
`ErrBucketNotExist`, `ErrIO`). -/
inductive ErrKind where
  | notStarted
  | notExist
  | bucketNotExist
  | ioErr
  deriving DecidableEq

/-- The engine state: the readiness flag plus the named buckets of the open
bolt file. -/
structure DBState where
  ready : Bool
  buckets : List (Bytes × List (Bytes × Bytes))
  deriving DecidableEq

/-- Bucket lookup by namespace: `tx.Bucket(name)`, nil when absent. -/
def nsLookup : List (Bytes × List (Bytes × Bytes)) → Bytes → Option (List (Bytes × Bytes))
  | [], _ => none
  | (n1, b1) :: rest, n => if n1 = n then some b1 else nsLookup rest n

/-- Store back a bucket under its namespace (append if newly created). -/
def setNs : List (Bytes × List (Bytes × Bytes)) → Bytes → List (Bytes × Bytes) →
    List (Bytes × List (Bytes × Bytes))
  | [], n, b => [(n, b)]
  | (n1, b1) :: rest, n, b => if n1 = n then (n, b) :: rest else (n1, b1) :: setNs rest n b

/-- BoltDB.Get: note that the source wraps `ErrNotExist` both when the bucket
is absent and when the key is absent. -/
def BoltDB.Get (db : DBState) (ns key : Bytes) : Except ErrKind Bytes :=
  if db.ready = false then Except.error ErrKind.notStarted
  else
    match nsLookup db.buckets ns with
    | none => Except.error ErrKind.notExist
    | some bkt =>
      match entryLookup bkt key with
      | none => Except.error ErrKind.notExist
      | some v => Except.ok v

/-- The scan loop of BoltDB.Filter: iterate from the start position, stop as
soon as a key compares greater than `maxKey` (when `checkMax`), collect the
pairs satisfying `cond`. -/
def filterScan (cond : Bytes → Bytes → Bool) (checkMax : Bool) (maxKey : Bytes) :
    List (Bytes × Bytes) → List (Bytes × Bytes)
  | [] => []
  | (k, v) :: rest =>
    if checkMax && bLt maxKey k then []
    else if cond k v then (k, v) :: filterScan cond checkMax maxKey rest
    else filterScan cond checkMax maxKey rest

/-- BoltDB.Filter: seeks to `minKey` (or the first key when `minKey` is
empty), scans collecting matches of `cond`, and fails `ErrNotExist` when
nothing matched. -/
def BoltDB.Filter (db : DBState) (ns : Bytes) (cond : Bytes → Bytes → Bool)
    (minKey maxKey : Bytes) : Except ErrKind (List Bytes × List Bytes) :=
  if db.ready = false then Except.error ErrKind.notStarted
  else
    match nsLookup db.buckets ns with
    | none => Except.error ErrKind.bucketNotExist
    | some bkt =>
      let start := if minKey.isEmpty then bkt else dropBefore minKey bkt
      let res := filterScan cond (!maxKey.isEmpty) maxKey start
      if res.length = 0 then Except.error ErrKind.notExist
      else Except.ok (res.map Prod.fst, res.map Prod.snd)

/-- The retrieval loop of BoltDB.Range: collect `count` consecutive values,
failing `ErrNotExist` if the cursor runs out first. -/
def rangeCollect : List (Bytes × Bytes) → Nat → Except ErrKind (List Bytes)
  | _, 0 => Except.ok []
  | [], _ + 1 => Except.error ErrKind.notExist
  | (_, v) :: rest, n + 1 =>
    match rangeCollect rest n with
    | Except.ok vs => Except.ok (v :: vs)
    | Except.error e => Except.error e

/-- BoltDB.Range: seek to `key`, fail `ErrNotExist` when the seek finds no
entry at all, else return exactly `count` consecutive values. The missing
bucket case also wraps `ErrNotExist` in the source. -/
def BoltDB.Range (db : DBState) (ns key : Bytes) (count : Nat) : Except ErrKind (List Bytes) :=
  if db.ready = false then Except.error ErrKind.notStarted
  else
    match nsLookup db.buckets ns with
    | none => Except.error ErrKind.notExist
    | some bkt =>
      match dropBefore key bkt with
      | [] => Except.error ErrKind.notExist
      | e :: rest => rangeCollect (e :: rest) count

/-- Unsigned 64-bit decrement: Go computes `key - 1` on a uint64, so key 0
wraps to 2^64 - 1. -/
def u64sub1 (key : Nat) : Nat := (key + (2 ^ 64 - 1)) % 2 ^ 64

/-- Big-endian 8-byte encoding of a 64-bit value
(byteutil.Uint64ToBytesBigEndian). -/
def u64be (n : Nat) : Bytes :=
  [n / 2 ^ 56 % 256, n / 2 ^ 48 % 256, n / 2 ^ 40 % 256, n / 2 ^ 32 % 256,
   n / 2 ^ 24 % 256, n / 2 ^ 16 % 256, n / 2 ^ 8 % 256, n % 256]

/-- The anchor boundary key used by Insert and Remove:
`Uint64ToBytesBigEndian(key - 1)` in uint64 arithmetic. -/
def anchorKey (key : Nat) : Bytes := u64be (u64sub1 key)

/-- Transaction body of BoltDB.Insert on the index bucket. The cursor seeks
the anchor `key - 1`: if the found key differs from the anchor (including the
not-found case, where the seek value is nil) a boundary `(anchor, v)` is
written; otherwise the cursor advances. The key left in the cursor variable,
when non-nil, is then overwritten with `value`. -/
def insertTx (bkt : List (Bytes × Bytes)) (key : Nat) (value : Bytes) :
    List (Bytes × Bytes) :=
  let ak := anchorKey key
  match dropBefore ak bkt with
  | [] => putEntry bkt ak []
  | (k, v) :: rest =>
    if k = ak then
      match rest with
      | [] => bkt
      | (k2, _) :: _ => putEntry bkt k2 value
    else
      putEntry (putEntry bkt ak v) k value

/-- Transaction body of BoltDB.Remove on the index bucket: a no-op unless a
boundary sits exactly at the anchor; otherwise that boundary is deleted and
its value written onto the next remaining boundary (the entry `cursor.Next`
reaches after the deletion), when one exists. -/
def removeTx (bkt : List (Bytes × Bytes)) (key : Nat) : List (Bytes × Bytes) :=
  let ak := anchorKey key
  match dropBefore ak bkt with
  | [] => bkt
  | (k, v) :: _ =>
    if k = ak then
      let b1 := deleteEntry bkt ak
      match dropBefore ak b1 with
      | [] => b1
      | (k2, _) :: _ => putEntry b1 k2 v
    else bkt

/-- Modelled from the spec: the sentinel "not-exist" marker value written by
Purge. The repository defines the constant `NotExist` outside the provided
sources; its exact byte content is immaterial to the claims, only that it is
the distinguished marker. -/
def NotExist : Bytes := [0]

/-- Transaction body of BoltDB.Purge on the index bucket: the cursor seeks
`key`, the Prev-and-delete loop then removes every entry before the seek
position (all of them when the seek found nothing), and the found entry, if
any, is overwritten with the `NotExist` sentinel. -/
def purgeTx (bkt : List (Bytes × Bytes)) (key : Nat) : List (Bytes × Bytes) :=
  let ek := u64be key
  match dropBefore ek bkt with
  | [] => []
  | (nk, v) :: rest => putEntry ((nk, v) :: rest) nk NotExist

/-- BoltDB.Insert at the engine level: a missing index bucket makes each
transaction attempt fail `ErrBucketNotExist`, which the post-loop wrap turns
into `ErrIO`. -/
def BoltDB.Insert (db : DBState) (name : Bytes) (key : Nat) (value : Bytes) :
    Except ErrKind DBState :=
  if db.ready = false then Except.error ErrKind.notStarted
  else
    match nsLookup db.buckets name with
    | none => Except.error ErrKind.ioErr
    | some bkt =>
      Except.ok { db with buckets := setNs db.buckets name (insertTx bkt key value) }

/-- BoltDB.Remove at the engine level. -/
def BoltDB.Remove (db : DBState) (name : Bytes) (key : Nat) : Except ErrKind DBState :=
  if db.ready = false then Except.error ErrKind.notStarted
  else
    match nsLookup db.buckets name with
    | none => Except.error ErrKind.ioErr
    | some bkt =>
      Except.ok { db with buckets := setNs db.buckets name (removeTx bkt key) }

/-- BoltDB.Purge at the engine level. -/
def BoltDB.Purge (db : DBState) (name : Bytes) (key : Nat) : Except ErrKind DBState :=
  if db.ready = false then Except.error ErrKind.notStarted
  else
    match nsLookup db.buckets name with
    | none => Except.error ErrKind.ioErr
    | some bkt =>
      Except.ok { db with buckets := setNs db.buckets name (purgeTx bkt key) }

/-- BoltDB.SeekNext: the value at the first boundary at or after `key`; the
source copies a nil seek result into an empty byte slice and returns it with
a nil error. -/
def BoltDB.SeekNext (db : DBState) (name : Bytes) (key : Nat) : Except ErrKind Bytes :=
  if db.ready = false then Except.error ErrKind.notStarted
  else
    match nsLookup db.buckets name with
    | none => Except.error ErrKind.bucketNotExist
    | some bkt =>
      match dropBefore (u64be key) bkt with
      | [] => Except.ok []
      | (_, v) :: _ => Except.ok v

/-- BoltDB.SeekPrev: the value of the boundary immediately preceding the seek
position of `key`; again a nil cursor result is returned as an empty byte
slice with a nil error. -/
def BoltDB.SeekPrev (db : DBState) (name : Bytes) (key : Nat) : Except ErrKind Bytes :=
  if db.ready = false then Except.error ErrKind.notStarted
  else
    match nsLookup db.buckets name with
    | none => Except.error ErrKind.bucketNotExist
    | some bkt =>
      match (takeBefore (u64be key) bkt).getLast? with
      | none => Except.ok []
      | some (_, v) => Except.ok v

/-- The tagged kind of a pending write (batch.Put, batch.Delete, or any other
kind a batch entry may carry). -/
inductive WriteType where
  | put
  | del
  | other
  deriving DecidableEq

/-- One pending write of a batch (batch.WriteInfo). -/
structure WriteInfo where
  writeType : WriteType
  ns : Bytes
  key : Bytes
  value : Bytes
  deriving DecidableEq

/-- Whether the coalescing pass handles this entry: only Put and Delete
participate. -/
def isPutOrDelete : WriteInfo → Bool
  | ⟨WriteType.put, _, _, _⟩ => true
  | ⟨WriteType.del, _, _, _⟩ => true
  | ⟨WriteType.other, _, _, _⟩ => false

/-- The (namespace, key) pair used as the dedup map key in WriteBatch. -/
def wkey (w : WriteInfo) : Bytes × Bytes := (w.ns, w.key)

/-- The backward scan of WriteBatch: entries are processed latest-first; a Put
or Delete is kept only if its (namespace, key) pair has not been seen yet,
other kinds are skipped entirely. -/
def coalesceGo : List WriteInfo → List (Bytes × Bytes) → List WriteInfo
  | [], _ => []
  | w :: rest, seen =>
    if isPutOrDelete w then
      if wkey w ∈ seen then coalesceGo rest seen
      else w :: coalesceGo rest (wkey w :: seen)
    else coalesceGo rest seen

/-- The coalescing pass of WriteBatch, producing the surviving operations in
the order they are applied (the source iterates its uniqEntries backward,
which restores the original batch order). -/
def coalesce (entries : List WriteInfo) : List WriteInfo :=
  (coalesceGo entries.reverse []).reverse

/-- The per-claim reference form of the coalescing pass, written from the
specification text: keep an entry exactly when it is a Put or Delete and no
later Put or Delete in the batch touches the same (namespace, key) pair. -/
def lastWriteFilter : List WriteInfo → List WriteInfo
  | [] => []
  | w :: rest =>
    if isPutOrDelete w = true ∧ ∀ u ∈ rest, isPutOrDelete u = true → wkey u ≠ wkey w
    then w :: lastWriteFilter rest
    else lastWriteFilter rest

/-- Application of one surviving write inside the WriteBatch transaction:
Put creates the bucket if needed and stores the pair, Delete of a missing
bucket is skipped, and the switch has no case for other kinds. -/
def applyOne (bks : List (Bytes × List (Bytes × Bytes))) (w : WriteInfo) :
    List (Bytes × List (Bytes × Bytes)) :=
  match w.writeType with
  | WriteType.put =>
    let bkt := (nsLookup bks w.ns).getD []
    setNs bks w.ns (putEntry bkt w.key w.value)
  | WriteType.del =>
    match nsLookup bks w.ns with
    | none => bks
    | some bkt => setNs bks w.ns (deleteEntry bkt w.key)
  | WriteType.other => bks

/-- BoltDB.WriteBatch: coalesce the batch, then apply the surviving
operations in their original order inside one transaction. -/
def BoltDB.WriteBatch (db : DBState) (entries : List WriteInfo) : Except ErrKind DBState :=
  if db.ready = false then Except.error ErrKind.notStarted
  else Except.ok { db with buckets := (coalesce entries).foldl applyOne db.buckets }

/-- Result of one transaction attempt inside the bounded retry loop of a
mutating operation: success, failure with the device-out-of-space error
(syscall.ENOSPC), or any other failure. -/
inductive AttemptResult where
  | ok
  | enospc
  | otherErr
  deriving DecidableEq

/-- What a mutating operation does after its retry loop finishes: a nil error
returns success, an error satisfying errors.Is(err, syscall.ENOSPC) calls
log.L().Fatal (process termination), any other error is wrapped into ErrIO
and returned. -/
inductive Outcome where
  | success
  | fatalTermination
  | ioError
  deriving DecidableEq

/-- The post-loop classification shared by Put, Delete, WriteBatch, Insert,
Remove and Purge. -/
def finishMutation : AttemptResult → Outcome
  | AttemptResult.ok => Outcome.success
  | AttemptResult.enospc => Outcome.fatalTermination
  | AttemptResult.otherErr => Outcome.ioError

/-- The retry loop `for c := uint8(0); c < NumRetries; c++ { err = attempt; if
err == nil break }`: given the remaining iteration budget, the next attempt
index and the error variable, return how many attempts ran and the final
error variable (nil when the loop body never ran). -/
def retryGo (att : Nat → AttemptResult) : Nat → Nat → AttemptResult → Nat × AttemptResult
  | 0, idx, last => (idx, last)
  | r + 1, idx, _ =>
    match att idx with
    | AttemptResult.ok => (idx + 1, AttemptResult.ok)
    | e => retryGo att r (idx + 1) e

/-- The common write-path skeleton of every mutating operation: run the
bounded retry loop, then classify the final error. Returns the number of
transaction attempts made and the observable outcome. -/
def mutateWithRetry (numRetries : Nat) (att : Nat → AttemptResult) : Nat × Outcome :=
  match retryGo att numRetries 0 AttemptResult.ok with
  | (attempts, e) => (attempts, finishMutation e)

/-- Decidable equality for operation results, so that concrete runs of the
model can be checked by evaluation. -/
instance exceptDecEq {e a : Type} [DecidableEq e] [DecidableEq a] :
    DecidableEq (Except e a) := fun x y =>
  match x, y with
  | Except.ok u, Except.ok v =>
    if h : u = v then isTrue (by rw [h])
    else isFalse (by intro hc; cases hc; exact h rfl)
  | Except.ok _, Except.error _ => isFalse (by intro hc; cases hc)
  | Except.error _, Except.ok _ => isFalse (by intro hc; cases hc)
  | Except.error u, Except.error v =>
    if h : u = v then isTrue (by rw [h])
    else isFalse (by intro hc; cases hc; exact h rfl)

instance sortedBDec (l : List (Bytes × Bytes)) : Decidable (SortedB l) :=
  inferInstanceAs
    (Decidable (l.Pairwise (fun (e1 e2 : Bytes × Bytes) => bLt e1.1 e2.1 = true)))

/-- The specification-side window of a Filter scan: at or after `minKey`
unless `minKey` is absent, and at or before `maxKey` unless `maxKey` is
absent (a key equal to `maxKey` is still inside). -/
def inScanRange (minKey maxKey k : Bytes) : Bool :=
  (minKey.isEmpty || !bLt k minKey) && (maxKey.isEmpty || !bLt maxKey k)

/-- The (namespace, key) pairs of the Put and Delete entries of a batch
segment: exactly the pairs the dedup map has seen after processing it. -/
def pdPairs : List WriteInfo → List (Bytes × Bytes)
  | [] => []
  | w :: rest => if isPutOrDelete w then wkey w :: pdPairs rest else pdPairs rest

theorem bLt_irrefl (a : Bytes) : bLt a a = false := by
  induction a with
  | nil => rfl
  | cons x xs ih => simp [bLt, ih]

theorem bLt_cons (x y : Nat) (xs ys : Bytes) :
    bLt (x :: xs) (y :: ys) = true ↔ (x < y ∨ (x = y ∧ bLt xs ys = true)) := by
  simp only [bLt]
  by_cases h1 : x < y
  · simp [h1]
  · by_cases h2 : y < x
    · simp only [if_neg h1, if_pos h2]
      constructor
      · intro h
        exact absurd h Bool.false_ne_true
      · intro h
        rcases h with h | ⟨h, _⟩
        · omega
        · omega
    · have hxy : x = y := by omega
      simp [h1, h2, hxy]

theorem bLt_trans : ∀ a b c : Bytes, bLt a b = true → bLt b c = true → bLt a c = true := by
  intro a
  induction a with
  | nil =>
    intro b c hab hbc
    cases b with
    | nil => exact absurd hab (by simp [bLt])
    | cons y ys =>
      cases c with
      | nil => exact absurd hbc (by simp [bLt])
      | cons z zs => simp [bLt]
  | cons x xs ih =>
    intro b c hab hbc
    cases b with
    | nil => exact absurd hab (by simp [bLt])
    | cons y ys =>
      cases c with
      | nil => exact absurd hbc (by simp [bLt])
      | cons z zs =>
        rw [bLt_cons] at hab hbc ⊢
        rcases hab with h1 | ⟨h1, h1x⟩
        · rcases hbc with h2 | ⟨h2, _⟩
          · exact Or.inl (Nat.lt_trans h1 h2)
          · exact Or.inl (h2 ▸ h1)
        · rcases hbc with h2 | ⟨h2, h2x⟩
          · exact Or.inl (h1 ▸ h2)
          · exact Or.inr ⟨h1.trans h2, ih ys zs h1x h2x⟩

theorem bLt_asymm {a b : Bytes} (h : bLt a b = true) : bLt b a = false := by
  by_contra hc
  have hba : bLt b a = true := by
    cases hb : bLt b a with
    | false => exact absurd hb hc
    | true => rfl
  have := bLt_trans a b a h hba
  rw [bLt_irrefl] at this
  exact Bool.false_ne_true this

theorem bLt_total : ∀ a b : Bytes, bLt a b = false → bLt b a = false → a = b := by
  intro a
  induction a with
  | nil =>
    intro b hab _
    cases b with
    | nil => rfl
    | cons y ys => exact absurd hab (by simp [bLt])
  | cons x xs ih =>
    intro b hab hba
    cases b with
    | nil => exact absurd hba (by simp [bLt])
    | cons y ys =>
      have hab2 : ¬ (x < y ∨ (x = y ∧ bLt xs ys = true)) := by
        rw [← bLt_cons]
        simp [hab]
      have hba2 : ¬ (y < x ∨ (y = x ∧ bLt ys xs = true)) := by
        rw [← bLt_cons]
        simp [hba]
      push_neg at hab2 hba2
      have hxy : x = y := by omega
      subst hxy
      have h1 : bLt xs ys = false := by
        cases h : bLt xs ys with
        | false => rfl
        | true => exact absurd h (hab2.2 rfl)
      have h2 : bLt ys xs = false := by
        cases h : bLt ys xs with
        | false => rfl
        | true => exact absurd h (hba2.2 rfl)
      rw [ih ys h1 h2]

theorem dropBefore_eq_filter (m : Bytes) (l : List (Bytes × Bytes)) (hs : SortedB l) :
    dropBefore m l = l.filter (fun e => !bLt e.1 m) := by
  induction l with
  | nil => rfl
  | cons e rest ih =>
    obtain ⟨k1, v1⟩ := e
    simp only [SortedB, List.pairwise_cons] at hs
    obtain ⟨hh, ht⟩ := hs
    by_cases hlt : bLt k1 m = true
    · simp only [dropBefore, if_pos hlt, List.filter, hlt, Bool.not_true]
      exact ih ht
    · have hlt2 : bLt k1 m = false := by
        cases h : bLt k1 m with
        | false => rfl
        | true => exact absurd h hlt
      simp only [dropBefore, hlt2, List.filter, Bool.not_false, Bool.false_eq_true,
        if_false, if_true]
      have hrest : rest.filter (fun e => !bLt e.1 m) = rest := by
        rw [List.filter_eq_self]
        intro a ha
        have hka : bLt k1 a.1 = true := hh a ha
        cases ham : bLt a.1 m with
        | false => simp
        | true =>
          have := bLt_trans k1 a.1 m hka ham
          rw [hlt2] at this
          exact absurd this Bool.false_ne_true
      rw [hrest]

theorem sortedB_filter (p : Bytes × Bytes → Bool) (l : List (Bytes × Bytes))
    (hs : SortedB l) : SortedB (l.filter p) :=
  List.Pairwise.sublist (List.filter_sublist l) hs

theorem head_filter_char (p : Bytes → Bool) (l : List (Bytes × Bytes)) (hs : SortedB l)
    (k v : Bytes) :
    (l.filter (fun e => p e.1)).head? = some (k, v) ↔
      ((k, v) ∈ l ∧ p k = true ∧ ∀ e ∈ l, p e.1 = true → bLt e.1 k = false) := by
  have hps : SortedB (l.filter (fun e => p e.1)) := sortedB_filter _ l hs
  constructor
  · intro h
    cases hf : l.filter (fun e => p e.1) with
    | nil => rw [hf] at h; cases h
    | cons e0 t =>
      rw [hf] at h
      simp only [List.head?] at h
      injection h with h
      subst h
      rw [hf] at hps
      simp only [SortedB, List.pairwise_cons] at hps
      obtain ⟨hall, _⟩ := hps
      have hmem : (k, v) ∈ l.filter (fun e => p e.1) := by
        rw [hf]
        exact List.mem_cons_self _ _
      rw [List.mem_filter] at hmem
      refine ⟨hmem.1, hmem.2, ?_⟩
      intro e he hpe
      have hef : e ∈ l.filter (fun e => p e.1) := by
        rw [List.mem_filter]
        exact ⟨he, hpe⟩
      rw [hf] at hef
      rcases List.mem_cons.mp hef with he0 | ht
      · rw [he0]
        exact bLt_irrefl k
      · exact bLt_asymm (hall e ht)
  · intro ⟨hmem, hpk, hmin⟩
    have hkf : (k, v) ∈ l.filter (fun e => p e.1) := by
      rw [List.mem_filter]
      exact ⟨hmem, hpk⟩
    cases hf : l.filter (fun e => p e.1) with
    | nil => rw [hf] at hkf; cases hkf
    | cons e0 t =>
      rw [hf] at hkf hps
      have he0f : e0 ∈ l.filter (fun e => p e.1) := by
        rw [hf]
        exact List.mem_cons_self _ _
      rw [List.mem_filter] at he0f
      have he0min : bLt e0.1 k = false := hmin e0 he0f.1 he0f.2
      simp only [SortedB, List.pairwise_cons] at hps
      obtain ⟨hall, _⟩ := hps
      rcases List.mem_cons.mp hkf with hk0 | ht
      · rw [← hk0]
        rfl
      · have := hall (k, v) ht
        rw [this] at he0min
        simp at he0min

theorem suffix_tail_eq (m : Bytes) (l : List (Bytes × Bytes)) (hs : SortedB l)
    (k0 v0 : Bytes) (rest : List (Bytes × Bytes))
    (h : dropBefore m l = (k0, v0) :: rest) :
    rest = l.filter (fun e => bLt k0 e.1) := by
  rw [dropBefore_eq_filter m l hs] at h
  have hps : SortedB (l.filter (fun e => !bLt e.1 m)) := sortedB_filter _ l hs
  rw [h] at hps
  simp only [SortedB, List.pairwise_cons] at hps
  obtain ⟨hall, _⟩ := hps
  have hk0 : (k0, v0) ∈ l.filter (fun e => !bLt e.1 m) := by
    rw [h]
    exact List.mem_cons_self _ _
  rw [List.mem_filter] at hk0
  have hk0m : bLt k0 m = false := by
    have := hk0.2
    simp only [Bool.not_eq_true'] at this
    exact this
  have hstep : ∀ a ∈ l, (bLt k0 a.1 && !bLt a.1 m) = bLt k0 a.1 := by
    intro a _
    cases hq : bLt k0 a.1 with
    | false => simp
    | true =>
      cases hp : bLt a.1 m with
      | false => simp
      | true =>
        have := bLt_trans k0 a.1 m hq hp
        rw [hk0m] at this
        exact absurd this Bool.false_ne_true
  symm
  calc l.filter (fun e => bLt k0 e.1)
      = l.filter (fun e => bLt k0 e.1 && !bLt e.1 m) := by
        exact (List.filter_congr hstep).symm
    _ = (l.filter (fun e => !bLt e.1 m)).filter (fun e => bLt k0 e.1) := by
        rw [List.filter_filter]
    _ = ((k0, v0) :: rest).filter (fun e => bLt k0 e.1) := by rw [h]
    _ = rest := by
        simp only [List.filter, bLt_irrefl k0]
        rw [List.filter_eq_self]
        intro a ha
        exact hall a ha

theorem dropBefore_nil_of_all_lt (m : Bytes) (l : List (Bytes × Bytes))
    (h : ∀ e ∈ l, bLt e.1 m = true) : dropBefore m l = [] := by
  induction l with
  | nil => rfl
  | cons e rest ih =>
    obtain ⟨k1, v1⟩ := e
    have hk1 : bLt k1 m = true := h (k1, v1) (List.mem_cons_self _ _)
    simp only [dropBefore, hk1, if_true]
    exact ih (fun e he => h e (List.mem_cons_of_mem _ he))

theorem takeBefore_nil_of_none_lt (m : Bytes) (l : List (Bytes × Bytes))
    (h : ∀ e ∈ l, bLt e.1 m = false) : takeBefore m l = [] := by
  cases l with
  | nil => rfl
  | cons e rest =>
    obtain ⟨k1, v1⟩ := e
    have hk1 : bLt k1 m = false := h (k1, v1) (List.mem_cons_self _ _)
    simp [takeBefore, hk1]

theorem retryGo_all_enospc (att : Nat → AttemptResult)
    (h : ∀ j, att j = AttemptResult.enospc) :
    ∀ (r idx : Nat) (last : AttemptResult),
      retryGo att r idx last =
        (idx + r, if r = 0 then last else AttemptResult.enospc) := by
  intro r
  induction r with
  | zero =>
    intro idx last
    simp [retryGo]
  | succ n ih =>
    intro idx last
    have hstep : retryGo att (n + 1) idx last = retryGo att n (idx + 1) AttemptResult.enospc := by
      rw [retryGo, h idx]
    rw [hstep, ih (idx + 1) AttemptResult.enospc]
    cases n with
    | zero => simp
    | succ p =>
      simp only [Prod.mk.injEq, Nat.succ_ne_zero, if_false, if_neg]
      constructor
      · omega
      · simp

theorem setNs_lookup_self (l : List (Bytes × List (Bytes × Bytes))) (n : Bytes)
    (b : List (Bytes × Bytes)) (h : nsLookup l n = some b) : setNs l n b = l := by
  induction l with
  | nil => cases h
  | cons e rest ih =>
    obtain ⟨n1, b1⟩ := e
    by_cases hn : n1 = n
    · simp only [nsLookup, if_pos hn] at h
      injection h with h
      simp [setNs, hn, h]
    · simp only [nsLookup, if_neg hn] at h
      simp [setNs, hn, ih h]

/-- C2: the claim states that an out-of-space failure is never retried — that
no further transaction attempt follows it. In the source the ENOSPC check sits
after the retry loop: a first-attempt ENOSPC failure with NumRetries = 2 is
followed by a second attempt, so the claim is false. -/
theorem writeRetry_counterexample :
    (mutateWithRetry 2 (fun _ => AttemptResult.enospc)).1 = 2 ∧
    ¬ (mutateWithRetry 2 (fun _ => AttemptResult.enospc)).1 = 1 := by
  decide

/-- C2 amended: an out-of-space failure is retried like any other failure, up
to NumRetries attempts in total; after the loop, a final out-of-space error
escalates to process termination instead of being returned as a recoverable
IO error. -/
theorem writeRetry_enospc_escalates (n : Nat) (att : Nat → AttemptResult)
    (h : ∀ j, att j = AttemptResult.enospc) :
    mutateWithRetry n att =
      (n, if n = 0 then Outcome.success else Outcome.fatalTermination) ∧
    ∀ (m : Nat) (att2 : Nat → AttemptResult),
      (retryGo att2 m 0 AttemptResult.ok).2 = AttemptResult.enospc →
      (mutateWithRetry m att2).2 = Outcome.fatalTermination := by
  constructor
  · rw [mutateWithRetry, retryGo_all_enospc att h n 0 AttemptResult.ok]
    cases n with
    | zero => simp [finishMutation]
    | succ p => simp [finishMutation]
  · intro m att2 h2
    rw [mutateWithRetry]
    cases hr : retryGo att2 m 0 AttemptResult.ok with
    | mk attempts e =>
      rw [hr] at h2
      simp at h2
      rw [h2]
      rfl

theorem writeRetry_enospc_escalates_witness :
    mutateWithRetry 2 (fun _ => AttemptResult.enospc) = (2, Outcome.fatalTermination) := by
  have h := (writeRetry_enospc_escalates 2 (fun _ => AttemptResult.enospc) (fun j => rfl)).1
  simpa using h

/-- C6: the claim states Get fails with the BucketNotExist kind when the
namespace is absent; the source wraps ErrNotExist there (and the repository
test for a deleted bucket expects ErrNotExist), so the claim is false. -/
theorem get_missing_bucket_counterexample :
    BoltDB.Get ⟨true, []⟩ [1] [2] = Except.error ErrKind.notExist ∧
    ¬ BoltDB.Get ⟨true, []⟩ [1] [2] = Except.error ErrKind.bucketNotExist := by
  decide

/-- C6 amended: on a ready engine Get surfaces the NotExist error kind both
when the namespace is absent and when the key is absent in an existing
namespace; the two absence conditions are not distinguished by Get. -/
theorem get_absence_uses_notExist (db : DBState) (ns key : Bytes)
    (hr : db.ready = true) :
    (nsLookup db.buckets ns = none → BoltDB.Get db ns key = Except.error ErrKind.notExist) ∧
    (∀ bkt, nsLookup db.buckets ns = some bkt → entryLookup bkt key = none →
      BoltDB.Get db ns key = Except.error ErrKind.notExist) := by
  constructor
  · intro h
    simp [BoltDB.Get, hr, h]
  · intro bkt hb hk
    simp [BoltDB.Get, hr, hb, hk]

theorem get_absence_uses_notExist_witness :
    BoltDB.Get ⟨true, [([1], [([5], [6])])]⟩ [2] [5] = Except.error ErrKind.notExist :=
  (get_absence_uses_notExist ⟨true, [([1], [([5], [6])])]⟩ [2] [5] rfl).1 rfl

/-- C9: SeekNext with no boundary at or after the key, and SeekPrev with no
boundary strictly before the seek position, both succeed with an empty byte
slice instead of failing NotExist; a stored empty value at the sought
boundary is returned identically, so the two cases are indistinguishable to
the caller. -/
theorem seek_missing_boundary_returns_empty (db : DBState) (name : Bytes) (key : Nat)
    (bkt : List (Bytes × Bytes)) (hr : db.ready = true)
    (hb : nsLookup db.buckets name = some bkt) :
    ((∀ e ∈ bkt, bLt e.1 (u64be key) = true) →
      BoltDB.SeekNext db name key = Except.ok []) ∧
    ((∀ e ∈ bkt, bLt e.1 (u64be key) = false) →
      BoltDB.SeekPrev db name key = Except.ok []) ∧
    (∀ k2 : Bytes, SortedB bkt → (k2, ([] : Bytes)) ∈ bkt →
      bLt k2 (u64be key) = false →
      (∀ e ∈ bkt, bLt e.1 (u64be key) = false → bLt e.1 k2 = false) →
      BoltDB.SeekNext db name key = Except.ok []) := by
  refine ⟨?_, ?_, ?_⟩
  · intro h
    have hd : dropBefore (u64be key) bkt = [] := dropBefore_nil_of_all_lt _ _ h
    simp [BoltDB.SeekNext, hr, hb, hd]
  · intro h
    have ht : takeBefore (u64be key) bkt = [] := takeBefore_nil_of_none_lt _ _ h
    simp [BoltDB.SeekPrev, hr, hb, ht]
  · intro k2 hsort hmem hge hmin
    have hchar : (bkt.filter (fun e => !bLt e.1 (u64be key))).head? = some (k2, []) := by
      refine (head_filter_char (fun x => !bLt x (u64be key)) bkt hsort k2 []).mpr
        ⟨hmem, by rw [hge]; rfl, ?_⟩
      intro e he hpe
      simp only [Bool.not_eq_true'] at hpe
      exact hmin e he hpe
    rw [← dropBefore_eq_filter _ _ hsort] at hchar
    cases hd : dropBefore (u64be key) bkt with
    | nil =>
      rw [hd] at hchar
      cases hchar
    | cons e t =>
      rw [hd] at hchar
      simp only [List.head?] at hchar
      injection hchar with hchar
      simp [BoltDB.SeekNext, hr, hb, hd, hchar]

theorem seek_missing_boundary_witness :
    BoltDB.SeekNext ⟨true, [([9], [])]⟩ [9] 5 = Except.ok [] :=
  (seek_missing_boundary_returns_empty ⟨true, [([9], [])]⟩ [9] 5 [] rfl rfl).1
    (by intro e he; cases he)

theorem bLt_replicate255 : ∀ (n : Nat) (bs : Bytes), bs.length = n →
    (∀ b ∈ bs, b ≤ 255) → bLt (List.replicate n 255) bs = false := by
  intro n
  induction n with
  | zero =>
    intro bs hlen _
    rw [List.length_eq_zero] at hlen
    subst hlen
    rfl
  | succ p ih =>
    intro bs hlen hle
    cases bs with
    | nil => cases hlen
    | cons b bs2 =>
      have hb : b ≤ 255 := hle b (List.mem_cons_self _ _)
      simp only [List.replicate, bLt]
      have h1 : ¬ (255 < b) := by omega
      rw [if_neg h1]
      by_cases h2 : b < 255
      · rw [if_pos h2]
      · rw [if_neg h2]
        exact ih bs2 (by simpa using hlen) (fun c hc => hle c (List.mem_cons_of_mem _ hc))

/-- C10: Insert and Remove compute the anchor with uint64 wraparound, so key
0 yields anchor 2^64 - 1, whose 8-byte big-endian encoding is the maximal
8-byte key; Insert(name, 0, v) writes that boundary rather than rejecting the
input, and Remove(name, 0) looks for exactly that boundary. -/
theorem anchor_wraps_for_key_zero :
    u64sub1 0 = 2 ^ 64 - 1 ∧
    anchorKey 0 = [255, 255, 255, 255, 255, 255, 255, 255] ∧
    (∀ bs : Bytes, bs.length = 8 → (∀ b ∈ bs, b ≤ 255) →
      bLt (anchorKey 0) bs = false) ∧
    (∀ v : Bytes, insertTx [] 0 v = [(anchorKey 0, [])]) ∧
    (∀ v : Bytes, removeTx [(anchorKey 0, v)] 0 = []) ∧
    (∀ v : Bytes, removeTx [(u64be 5, v)] 0 = [(u64be 5, v)]) ∧
    (∀ v : Bytes,
      BoltDB.Insert ⟨true, [([9], [])]⟩ [9] 0 v =
        Except.ok ⟨true, [([9], [(anchorKey 0, [])])]⟩) := by
  refine ⟨by decide, by decide, ?_, ?_, ?_, ?_, ?_⟩
  · intro bs h1 h2
    rw [show anchorKey 0 = List.replicate 8 255 from by decide]
    exact bLt_replicate255 8 bs h1 h2
  · intro v
    rfl
  · intro v
    rfl
  · intro v
    rfl
  · intro v
    rfl

theorem anchor_wraps_witness :
    bLt (anchorKey 0) (u64be 123456789) = false ∧
    insertTx [] 0 [7] = [(anchorKey 0, [])] :=
  ⟨anchor_wraps_for_key_zero.2.2.1 (u64be 123456789) (by decide) (by decide),
   anchor_wraps_for_key_zero.2.2.2.1 [7]⟩

theorem rangeCollect_ok : ∀ (n : Nat) (l : List (Bytes × Bytes)), n ≤ l.length →
    rangeCollect l n = Except.ok ((l.take n).map Prod.snd) := by
  intro n
  induction n with
  | zero =>
    intro l _
    cases l with
    | nil => rfl
    | cons e rest => rfl
  | succ p ih =>
    intro l h
    cases l with
    | nil => simp at h
    | cons e rest =>
      obtain ⟨k, v⟩ := e
      have hp : p ≤ rest.length := by simpa using h
      simp only [rangeCollect, ih rest hp, List.take, List.map]

theorem rangeCollect_err : ∀ (n : Nat) (l : List (Bytes × Bytes)), l.length < n →
    rangeCollect l n = Except.error ErrKind.notExist := by
  intro n
  induction n with
  | zero =>
    intro l h
    simp at h
  | succ p ih =>
    intro l h
    cases l with
    | nil => rfl
    | cons e rest =>
      obtain ⟨k, v⟩ := e
      have hp : rest.length < p := by simpa using h
      simp only [rangeCollect, ih rest hp]

/-- C8: the claim demands success with zero values whenever at least `count`
entries sit at or after the start key, which with count = 0 covers the case
of no entry at all; the source instead fails NotExist as soon as the seek
finds nothing, before the count loop runs. -/
theorem range_count_zero_counterexample :
    BoltDB.Range ⟨true, [([1], [([5], [7])])]⟩ [1] [9] 0 = Except.error ErrKind.notExist ∧
    ¬ BoltDB.Range ⟨true, [([1], [([5], [7])])]⟩ [1] [9] 0 = Except.ok [] := by
  decide

/-- C8 amended: with the namespace existing, Range fails NotExist whenever no
entry at or after the start key exists, regardless of count (even count = 0);
otherwise it returns exactly the values of the count consecutive entries
starting at the smallest key at or after the start key when at least count
entries remain, and fails NotExist with no values when fewer remain. -/
theorem range_spec (db : DBState) (ns key : Bytes) (count : Nat)
    (bkt : List (Bytes × Bytes)) (hr : db.ready = true)
    (hb : nsLookup db.buckets ns = some bkt) (hsort : SortedB bkt) :
    (bkt.filter (fun e => !bLt e.1 key) = [] →
      BoltDB.Range db ns key count = Except.error ErrKind.notExist) ∧
    (bkt.filter (fun e => !bLt e.1 key) ≠ [] →
      (count ≤ (bkt.filter (fun e => !bLt e.1 key)).length →
        BoltDB.Range db ns key count =
          Except.ok (((bkt.filter (fun e => !bLt e.1 key)).take count).map Prod.snd)) ∧
      ((bkt.filter (fun e => !bLt e.1 key)).length < count →
        BoltDB.Range db ns key count = Except.error ErrKind.notExist)) := by
  have hdf : dropBefore key bkt = bkt.filter (fun e => !bLt e.1 key) :=
    dropBefore_eq_filter _ _ hsort
  constructor
  · intro h
    simp [BoltDB.Range, hr, hb, hdf, h]
  · intro hne
    have hrun : ∀ r : Except ErrKind (List Bytes),
        rangeCollect (bkt.filter (fun e => !bLt e.1 key)) count = r →
        BoltDB.Range db ns key count = r := by
      intro r hcoll
      cases hf : bkt.filter (fun e => !bLt e.1 key) with
      | nil => exact absurd hf hne
      | cons e t =>
        rw [hf] at hcoll
        simp [BoltDB.Range, hr, hb, hdf, hf, hcoll]
    constructor
    · intro hc
      exact hrun _ (rangeCollect_ok count _ hc)
    · intro hc
      exact hrun _ (rangeCollect_err count _ hc)

theorem range_spec_witness :
    BoltDB.Range ⟨true, [([1], [([2], [3]), ([4], [5]), ([6], [7])])]⟩ [1] [3] 2 =
      Except.ok [[5], [7]] := by
  have h := (range_spec ⟨true, [([1], [([2], [3]), ([4], [5]), ([6], [7])])]⟩ [1] [3] 2
    [([2], [3]), ([4], [5]), ([6], [7])] rfl rfl (by decide)).2 (by decide)
  have h2 := h.1 (by decide)
  simpa using h2

theorem filterScan_eq_filter (cond : Bytes → Bytes → Bool) (checkMax : Bool)
    (maxKey : Bytes) (l : List (Bytes × Bytes)) (hs : SortedB l) :
    filterScan cond checkMax maxKey l =
      l.filter (fun e => !(checkMax && bLt maxKey e.1) && cond e.1 e.2) := by
  induction l with
  | nil => rfl
  | cons e rest ih =>
    obtain ⟨k, v⟩ := e
    simp only [SortedB, List.pairwise_cons] at hs
    obtain ⟨hh, ht⟩ := hs
    by_cases hstop : (checkMax && bLt maxKey k) = true
    · have hrest : rest.filter (fun e => !(checkMax && bLt maxKey e.1) && cond e.1 e.2) = [] := by
        rw [List.filter_eq_nil_iff]
        intro a ha
        have hka : bLt k a.1 = true := hh a ha
        have hcmk : checkMax = true ∧ bLt maxKey k = true := by simpa using hstop
        have hma : bLt maxKey a.1 = true := bLt_trans maxKey k a.1 hcmk.2 hka
        simp [hcmk.1, hma]
      simp only [filterScan, if_pos hstop, List.filter, hstop, Bool.not_true,
        Bool.false_and, hrest]
      simp
    · have hstop2 : (checkMax && bLt maxKey k) = false := by
        cases h : (checkMax && bLt maxKey k) with
        | false => rfl
        | true => exact absurd h hstop
      simp only [filterScan, hstop2, Bool.false_eq_true, if_false, List.filter,
        Bool.not_false, Bool.true_and]
      by_cases hc : cond k v = true
      · simp only [hc, ih ht]
        simp
      · have hc2 : cond k v = false := by
          cases h : cond k v with
          | false => rfl
          | true => exact absurd h hc
        simp only [hc2, Bool.false_eq_true, if_false, ih ht]

/-- C7: with the namespace existing and its entries in ascending key order,
Filter returns exactly the in-window entries satisfying the predicate, in
that order, failing NotExist when there are none; a missing namespace fails
BucketNotExist. -/
theorem filter_spec (db : DBState) (ns : Bytes) (cond : Bytes → Bytes → Bool)
    (minKey maxKey : Bytes) (hr : db.ready = true) :
    (nsLookup db.buckets ns = none →
      BoltDB.Filter db ns cond minKey maxKey = Except.error ErrKind.bucketNotExist) ∧
    (∀ bkt, nsLookup db.buckets ns = some bkt → SortedB bkt →
      BoltDB.Filter db ns cond minKey maxKey =
        (if bkt.filter (fun e => inScanRange minKey maxKey e.1 && cond e.1 e.2) = []
         then Except.error ErrKind.notExist
         else Except.ok
           ((bkt.filter (fun e => inScanRange minKey maxKey e.1 && cond e.1 e.2)).map Prod.fst,
            (bkt.filter (fun e => inScanRange minKey maxKey e.1 && cond e.1 e.2)).map Prod.snd))) := by
  constructor
  · intro h
    simp [BoltDB.Filter, hr, h]
  · intro bkt hb hsort
    have hres : filterScan cond (!maxKey.isEmpty) maxKey
        (if minKey.isEmpty then bkt else dropBefore minKey bkt) =
        bkt.filter (fun e => inScanRange minKey maxKey e.1 && cond e.1 e.2) := by
      by_cases hmin : minKey.isEmpty
      · rw [if_pos hmin, filterScan_eq_filter cond _ _ bkt hsort]
        apply List.filter_congr
        intro a _
        simp [inScanRange, hmin, Bool.and_assoc]
      · rw [if_neg hmin, dropBefore_eq_filter minKey bkt hsort,
          filterScan_eq_filter cond _ _ _ (sortedB_filter _ bkt hsort),
          List.filter_filter]
        apply List.filter_congr
        intro a _
        have hmin2 : minKey.isEmpty = false := by
          cases h : minKey.isEmpty with
          | false => rfl
          | true => exact absurd h hmin
        simp only [inScanRange, hmin2, Bool.false_or]
        cases h1 : bLt a.1 minKey <;> cases h2 : bLt maxKey a.1 <;>
          cases h3 : cond a.1 a.2 <;> cases h4 : maxKey.isEmpty <;> simp
    simp only [BoltDB.Filter, hr, Bool.true_eq_false, if_false, hb, hres,
      List.length_eq_zero]

theorem filter_spec_witness :
    BoltDB.Filter ⟨true, [([1], [([2], [3]), ([4], [5]), ([6], [7])])]⟩ [1]
      (fun _ _ => true) [3] [] = Except.ok ([[4], [6]], [[5], [7]]) := by
  have h := (filter_spec ⟨true, [([1], [([2], [3]), ([4], [5]), ([6], [7])])]⟩ [1]
    (fun _ _ => true) [3] [] rfl).2 [([2], [3]), ([4], [5]), ([6], [7])] rfl (by decide)
  rw [h]
  decide

theorem takeBefore_append_dropBefore (m : Bytes) (l : List (Bytes × Bytes)) :
    takeBefore m l ++ dropBefore m l = l := by
  induction l with
  | nil => rfl
  | cons e rest ih =>
    obtain ⟨k1, v1⟩ := e
    by_cases h : bLt k1 m = true
    · simp [takeBefore, dropBefore, h, ih]
    · have h2 : bLt k1 m = false := by
        cases hx : bLt k1 m with
        | false => rfl
        | true => exact absurd hx h
      simp [takeBefore, dropBefore, h2]

theorem mem_takeBefore_lt (m : Bytes) (l : List (Bytes × Bytes)) :
    ∀ e ∈ takeBefore m l, bLt e.1 m = true := by
  induction l with
  | nil => intro e he; cases he
  | cons e0 rest ih =>
    obtain ⟨k1, v1⟩ := e0
    intro e he
    by_cases h : bLt k1 m = true
    · rw [takeBefore, if_pos h] at he
      rcases List.mem_cons.mp he with h1 | h2
      · rw [h1]
        exact h
      · exact ih e h2
    · have h2 : bLt k1 m = false := by
        cases hx : bLt k1 m with
        | false => rfl
        | true => exact absurd hx h
      rw [takeBefore, h2] at he
      simp at he

theorem deleteEntry_append_notmem (kk : Bytes) (v : Bytes)
    (l1 l2 : List (Bytes × Bytes)) (h : ∀ e ∈ l1, e.1 ≠ kk) :
    deleteEntry (l1 ++ (kk, v) :: l2) kk = l1 ++ l2 := by
  induction l1 with
  | nil => simp [deleteEntry]
  | cons e rest ih =>
    obtain ⟨k1, v1⟩ := e
    have hne : k1 ≠ kk := h (k1, v1) (List.mem_cons_self _ _)
    simp only [List.cons_append, deleteEntry, if_neg hne]
    exact congrArg (List.cons (k1, v1)) (ih (fun e he => h e (List.mem_cons_of_mem _ he)))

theorem dropBefore_append_all_lt (m : Bytes) (l1 l2 : List (Bytes × Bytes))
    (h : ∀ e ∈ l1, bLt e.1 m = true) :
    dropBefore m (l1 ++ l2) = dropBefore m l2 := by
  induction l1 with
  | nil => rfl
  | cons e rest ih =>
    obtain ⟨k1, v1⟩ := e
    have hk : bLt k1 m = true := h (k1, v1) (List.mem_cons_self _ _)
    simp only [List.cons_append, dropBefore, hk, if_true]
    exact ih (fun e he => h e (List.mem_cons_of_mem _ he))

theorem dropBefore_id_of_none_lt (m : Bytes) (l : List (Bytes × Bytes))
    (h : ∀ e ∈ l, bLt e.1 m = false) : dropBefore m l = l := by
  cases l with
  | nil => rfl
  | cons e rest =>
    obtain ⟨k1, v1⟩ := e
    have hk : bLt k1 m = false := h (k1, v1) (List.mem_cons_self _ _)
    simp [dropBefore, hk]

theorem putEntry_cons_self (k x v : Bytes) (rest : List (Bytes × Bytes)) :
    putEntry ((k, v) :: rest) k x = (k, x) :: rest := by
  simp [putEntry, bLt_irrefl]

theorem head_dropBefore_char (m : Bytes) (bkt : List (Bytes × Bytes))
    (hsort : SortedB bkt) (k v : Bytes) (hmem : (k, v) ∈ bkt)
    (hge : bLt k m = false)
    (hmin : ∀ e ∈ bkt, bLt e.1 m = false → bLt e.1 k = false) :
    ∃ rest, dropBefore m bkt = (k, v) :: rest ∧
      rest = bkt.filter (fun e => bLt k e.1) := by
  have hchar : (bkt.filter (fun e => !bLt e.1 m)).head? = some (k, v) := by
    refine (head_filter_char (fun x => !bLt x m) bkt hsort k v).mpr ⟨hmem, by rw [hge]; rfl, ?_⟩
    intro e he hpe
    simp only [Bool.not_eq_true'] at hpe
    exact hmin e he hpe
  rw [← dropBefore_eq_filter _ _ hsort] at hchar
  cases hd : dropBefore m bkt with
  | nil =>
    rw [hd] at hchar
    cases hchar
  | cons e t =>
    rw [hd] at hchar
    simp only [List.head?] at hchar
    injection hchar with hchar
    subst hchar
    exact ⟨t, rfl, suffix_tail_eq m bkt hsort k v t hd⟩

/-- C3: on an existing index namespace, Insert seeks the smallest stored
boundary (k, v) at or after the anchor key - 1; when k differs from the
anchor it first writes (anchor, v) and then overwrites (k, value); when k
equals the anchor it instead overwrites the next boundary after the anchor
with value, writing nothing at the anchor (and nothing at all when no next
boundary exists); when no boundary at or after the anchor exists only the
anchor boundary is written (with the nil seek value). -/
theorem insert_spec (db : DBState) (name : Bytes) (key : Nat) (value : Bytes)
    (bkt : List (Bytes × Bytes)) (hr : db.ready = true)
    (hb : nsLookup db.buckets name = some bkt) (hsort : SortedB bkt) :
    BoltDB.Insert db name key value =
      Except.ok { db with buckets := setNs db.buckets name (insertTx bkt key value) } ∧
    ((∀ e ∈ bkt, bLt e.1 (anchorKey key) = true) →
      insertTx bkt key value = putEntry bkt (anchorKey key) []) ∧
    (∀ k v, (k, v) ∈ bkt → bLt k (anchorKey key) = false →
      (∀ e ∈ bkt, bLt e.1 (anchorKey key) = false → bLt e.1 k = false) →
      (k ≠ anchorKey key →
        insertTx bkt key value = putEntry (putEntry bkt (anchorKey key) v) k value) ∧
      (k = anchorKey key →
        ((∀ e ∈ bkt, bLt (anchorKey key) e.1 = false) → insertTx bkt key value = bkt) ∧
        (∀ k2 v2, (k2, v2) ∈ bkt → bLt (anchorKey key) k2 = true →
          (∀ e ∈ bkt, bLt (anchorKey key) e.1 = true → bLt e.1 k2 = false) →
          insertTx bkt key value = putEntry bkt k2 value))) := by
  refine ⟨by simp [BoltDB.Insert, hr, hb], ?_, ?_⟩
  · intro h
    have hd : dropBefore (anchorKey key) bkt = [] := dropBefore_nil_of_all_lt _ _ h
    simp [insertTx, hd]
  · intro k v hmem hge hmin
    obtain ⟨rest, hd, hrest⟩ :=
      head_dropBefore_char (anchorKey key) bkt hsort k v hmem hge hmin
    constructor
    · intro hne
      simp [insertTx, hd, if_neg hne]
    · intro heq
      subst heq
      constructor
      · intro hnone
        have hrnil : rest = [] := by
          rw [hrest, List.filter_eq_nil_iff]
          intro a ha
          simp [hnone a ha]
        rw [hrnil] at hd
        simp [insertTx, hd]
      · intro k2 v2 hmem2 hgt2 hmin2
        have hhead2 : (bkt.filter (fun e => bLt (anchorKey key) e.1)).head? = some (k2, v2) := by
          refine (head_filter_char (fun x => bLt (anchorKey key) x) bkt hsort k2 v2).mpr
            ⟨hmem2, hgt2, ?_⟩
          intro e he hpe
          exact hmin2 e he hpe
        rw [← hrest] at hhead2
        cases hre : rest with
        | nil =>
          rw [hre] at hhead2
          cases hhead2
        | cons e2 t2 =>
          rw [hre] at hhead2 hd
          simp only [List.head?] at hhead2
          injection hhead2 with hhead2
          subst hhead2
          simp [insertTx, hd]

theorem insert_spec_witness :
    insertTx [(u64be 49, [2]), (u64be 99, [3])] 70 [7] =
      putEntry (putEntry [(u64be 49, [2]), (u64be 99, [3])] (anchorKey 70) [3])
        (u64be 99) [7] := by
  have h := ((insert_spec ⟨true, [([9], [(u64be 49, [2]), (u64be 99, [3])])]⟩ [9] 70 [7]
    [(u64be 49, [2]), (u64be 99, [3])] rfl rfl (by decide)).2.2
    (u64be 99) [3] (by decide) (by decide) (by decide)).1 (by decide)
  exact h

/-- C4: on an existing index namespace, Remove is a successful no-op when no
boundary sits exactly at the anchor key - 1; when the anchor boundary (anchor,
v) exists it is deleted and v is written onto the next remaining boundary
after the anchor when one exists, so the value closing the interval is
carried forward. -/
theorem remove_spec (db : DBState) (name : Bytes) (key : Nat)
    (bkt : List (Bytes × Bytes)) (hr : db.ready = true)
    (hb : nsLookup db.buckets name = some bkt) (hsort : SortedB bkt) :
    BoltDB.Remove db name key =
      Except.ok { db with buckets := setNs db.buckets name (removeTx bkt key) } ∧
    ((∀ e ∈ bkt, e.1 ≠ anchorKey key) →
      removeTx bkt key = bkt ∧ BoltDB.Remove db name key = Except.ok db) ∧
    (∀ v, (anchorKey key, v) ∈ bkt →
      ((∀ e ∈ bkt, bLt (anchorKey key) e.1 = false) →
        removeTx bkt key = deleteEntry bkt (anchorKey key)) ∧
      (∀ k2 v2, (k2, v2) ∈ bkt → bLt (anchorKey key) k2 = true →
        (∀ e ∈ bkt, bLt (anchorKey key) e.1 = true → bLt e.1 k2 = false) →
        removeTx bkt key = putEntry (deleteEntry bkt (anchorKey key)) k2 v)) := by
  have hred : BoltDB.Remove db name key =
      Except.ok { db with buckets := setNs db.buckets name (removeTx bkt key) } := by
    simp [BoltDB.Remove, hr, hb]
  refine ⟨hred, ?_, ?_⟩
  · intro hnone
    have htx : removeTx bkt key = bkt := by
      cases hd : dropBefore (anchorKey key) bkt with
      | nil => simp [removeTx, hd]
      | cons e t =>
        obtain ⟨k1, v1⟩ := e
        have hmem1 : (k1, v1) ∈ bkt := by
          have : (k1, v1) ∈ dropBefore (anchorKey key) bkt := by
            rw [hd]
            exact List.mem_cons_self _ _
          rw [dropBefore_eq_filter _ _ hsort] at this
          exact (List.mem_filter.mp this).1
        have hne : ¬ (k1 = anchorKey key) := hnone (k1, v1) hmem1
        simp [removeTx, hd, if_neg hne]
    exact ⟨htx, by rw [hred, htx, setNs_lookup_self db.buckets name bkt hb]⟩
  · intro v hmem
    have hge : bLt (anchorKey key) (anchorKey key) = false := bLt_irrefl _
    obtain ⟨rest, hd, hrest⟩ :=
      head_dropBefore_char (anchorKey key) bkt hsort (anchorKey key) v hmem hge
        (fun e _ h => h)
    have hsplit : takeBefore (anchorKey key) bkt ++ (anchorKey key, v) :: rest = bkt := by
      rw [← hd]
      exact takeBefore_append_dropBefore _ _
    have hnm : ∀ e ∈ takeBefore (anchorKey key) bkt, e.1 ≠ anchorKey key := by
      intro e he hc
      have hlt : bLt e.1 (anchorKey key) = true := mem_takeBefore_lt _ _ e he
      rw [hc, bLt_irrefl] at hlt
      exact Bool.false_ne_true hlt
    have hdel : deleteEntry bkt (anchorKey key) = takeBefore (anchorKey key) bkt ++ rest := by
      conv_lhs => rw [← hsplit]
      exact deleteEntry_append_notmem _ _ _ _ hnm
    have hnextd : dropBefore (anchorKey key) (deleteEntry bkt (anchorKey key)) = rest := by
      rw [hdel, dropBefore_append_all_lt _ _ _ (mem_takeBefore_lt _ _)]
      apply dropBefore_id_of_none_lt
      intro e he
      have hgt : bLt (anchorKey key) e.1 = true := by
        rw [hrest] at he
        exact (List.mem_filter.mp he).2
      exact bLt_asymm hgt
    constructor
    · intro hnone
      have hrnil : rest = [] := by
        rw [hrest, List.filter_eq_nil_iff]
        intro a ha
        simp [hnone a ha]
      rw [hrnil] at hd hnextd
      simp [removeTx, hd, hnextd]
    · intro k2 v2 hmem2 hgt2 hmin2
      have hhead2 : (bkt.filter (fun e => bLt (anchorKey key) e.1)).head? = some (k2, v2) := by
        refine (head_filter_char (fun x => bLt (anchorKey key) x) bkt hsort k2 v2).mpr
          ⟨hmem2, hgt2, ?_⟩
        intro e he hpe
        exact hmin2 e he hpe
      rw [← hrest] at hhead2
      cases hre : rest with
      | nil =>
        rw [hre] at hhead2
        cases hhead2
      | cons e2 t2 =>
        rw [hre] at hhead2 hd hnextd
        simp only [List.head?] at hhead2
        injection hhead2 with hhead2
        subst hhead2
        simp [removeTx, hd, hnextd]

theorem remove_spec_witness :
    removeTx [(anchorKey 70, [3]), (u64be 99, [9])] 70 =
      putEntry (deleteEntry [(anchorKey 70, [3]), (u64be 99, [9])] (anchorKey 70))
        (u64be 99) [3] :=
  ((remove_spec ⟨true, [([9], [(anchorKey 70, [3]), (u64be 99, [9])])]⟩ [9] 70
    [(anchorKey 70, [3]), (u64be 99, [9])] rfl rfl (by decide)).2.2 [3] (by decide)).2
    (u64be 99) [9] (by decide) (by decide) (by decide)

/-- C5: on an existing index namespace, Purge deletes every boundary strictly
before the smallest boundary at or after the key (all of them when no such
boundary exists) and overwrites that first remaining boundary, when it
exists, with the NotExist sentinel, leaving the later boundaries intact. -/
theorem purge_spec (db : DBState) (name : Bytes) (key : Nat)
    (bkt : List (Bytes × Bytes)) (hr : db.ready = true)
    (hb : nsLookup db.buckets name = some bkt) (hsort : SortedB bkt) :
    BoltDB.Purge db name key =
      Except.ok { db with buckets := setNs db.buckets name (purgeTx bkt key) } ∧
    ((∀ e ∈ bkt, bLt e.1 (u64be key) = true) → purgeTx bkt key = []) ∧
    (∀ nk v, (nk, v) ∈ bkt → bLt nk (u64be key) = false →
      (∀ e ∈ bkt, bLt e.1 (u64be key) = false → bLt e.1 nk = false) →
      purgeTx bkt key = (nk, NotExist) :: bkt.filter (fun e => bLt nk e.1)) := by
  refine ⟨by simp [BoltDB.Purge, hr, hb], ?_, ?_⟩
  · intro h
    have hd : dropBefore (u64be key) bkt = [] := dropBefore_nil_of_all_lt _ _ h
    simp [purgeTx, hd]
  · intro nk v hmem hge hmin
    obtain ⟨rest, hd, hrest⟩ :=
      head_dropBefore_char (u64be key) bkt hsort nk v hmem hge hmin
    simp only [purgeTx, hd, putEntry_cons_self, hrest]

theorem purge_spec_witness :
    purgeTx [(u64be 49, [4]), (u64be 150, [7]), (u64be 200, [9])] 100 =
      (u64be 150, NotExist) ::
        ([(u64be 49, [4]), (u64be 150, [7]), (u64be 200, [9])].filter
          (fun e => bLt (u64be 150) e.1)) :=
  (purge_spec ⟨true, [([9], [(u64be 49, [4]), (u64be 150, [7]), (u64be 200, [9])])]⟩ [9] 100
    [(u64be 49, [4]), (u64be 150, [7]), (u64be 200, [9])] rfl rfl (by decide)).2.2
    (u64be 150) [7] (by decide) (by decide) (by decide)

theorem mem_pdPairs (p : Bytes × Bytes) :
    ∀ l : List WriteInfo, p ∈ pdPairs l ↔ ∃ u ∈ l, isPutOrDelete u = true ∧ wkey u = p := by
  intro l
  induction l with
  | nil => simp [pdPairs]
  | cons w rest ih =>
    by_cases h : isPutOrDelete w = true
    · simp only [pdPairs, if_pos h, List.mem_cons, ih]
      constructor
      · intro hc
        rcases hc with hc | ⟨u, hu, h1, h2⟩
        · exact ⟨w, Or.inl rfl, h, hc.symm⟩
        · exact ⟨u, Or.inr hu, h1, h2⟩
      · intro ⟨u, hu, h1, h2⟩
        rcases hu with hu | hu
        · subst hu
          exact Or.inl h2.symm
        · exact Or.inr ⟨u, hu, h1, h2⟩
    · have h2 : isPutOrDelete w = false := by
        cases hx : isPutOrDelete w with
        | false => rfl
        | true => exact absurd hx h
      simp only [pdPairs, h2, Bool.false_eq_true, if_false, ih, List.mem_cons]
      constructor
      · intro ⟨u, hu, h1, hx⟩
        exact ⟨u, Or.inr hu, h1, hx⟩
      · intro ⟨u, hu, h1, hx⟩
        rcases hu with hu | hu
        · subst hu
          rw [h1] at h2
          cases h2
        · exact ⟨u, hu, h1, hx⟩

theorem coalesceGo_snoc (w : WriteInfo) :
    ∀ (r : List WriteInfo) (s : List (Bytes × Bytes)),
      coalesceGo (r ++ [w]) s =
        coalesceGo r s ++
          (if isPutOrDelete w = true ∧ wkey w ∉ s ∧ wkey w ∉ pdPairs r
           then [w] else []) := by
  intro r
  induction r with
  | nil =>
    intro s
    by_cases hpd : isPutOrDelete w = true
    · by_cases hs : wkey w ∈ s
      · simp [coalesceGo, hpd, hs, pdPairs]
      · simp [coalesceGo, hpd, hs, pdPairs]
    · have hpd2 : isPutOrDelete w = false := by
        cases hx : isPutOrDelete w with
        | false => rfl
        | true => exact absurd hx hpd
      simp [coalesceGo, hpd2, pdPairs]
  | cons x r2 ih =>
    intro s
    by_cases hx : isPutOrDelete x = true
    · by_cases hseen : wkey x ∈ s
      · have hl : coalesceGo ((x :: r2) ++ [w]) s = coalesceGo (r2 ++ [w]) s := by
          simp [coalesceGo, hx, hseen]
        have hr : coalesceGo (x :: r2) s = coalesceGo r2 s := by
          simp [coalesceGo, hx, hseen]
        rw [hl, hr, ih s]
        by_cases hww : wkey w = wkey x
        · have hws : wkey w ∈ s := hww ▸ hseen
          simp [hws]
        · have hiff : (isPutOrDelete w = true ∧ wkey w ∉ s ∧ wkey w ∉ pdPairs r2) ↔
              (isPutOrDelete w = true ∧ wkey w ∉ s ∧ wkey w ∉ pdPairs (x :: r2)) := by
            simp [pdPairs, hx, List.mem_cons, hww]
          rw [if_congr hiff rfl rfl]
      · have hl : coalesceGo ((x :: r2) ++ [w]) s =
            x :: coalesceGo (r2 ++ [w]) (wkey x :: s) := by
          simp [coalesceGo, hx, hseen]
        have hr : coalesceGo (x :: r2) s = x :: coalesceGo r2 (wkey x :: s) := by
          simp [coalesceGo, hx, hseen]
        rw [hl, hr, ih (wkey x :: s)]
        by_cases hww : wkey w = wkey x
        · have h1 : ¬ (isPutOrDelete w = true ∧ wkey w ∉ wkey x :: s ∧
              wkey w ∉ pdPairs r2) := by
            intro ⟨_, hns, _⟩
            exact hns (by rw [hww]; exact List.mem_cons_self _ _)
          have h2 : ¬ (isPutOrDelete w = true ∧ wkey w ∉ s ∧
              wkey w ∉ pdPairs (x :: r2)) := by
            intro ⟨_, _, hnp⟩
            refine hnp ?_
            simp only [pdPairs, hx, if_true]
            rw [hww]
            exact List.mem_cons_self _ _
          rw [if_neg h1, if_neg h2]
          simp
        · have hiff : (isPutOrDelete w = true ∧ wkey w ∉ wkey x :: s ∧
              wkey w ∉ pdPairs r2) ↔
              (isPutOrDelete w = true ∧ wkey w ∉ s ∧ wkey w ∉ pdPairs (x :: r2)) := by
            simp only [pdPairs, hx, if_true, List.mem_cons, not_or]
            tauto
          rw [if_congr hiff rfl rfl]
          simp
    · have hx2 : isPutOrDelete x = false := by
        cases hc : isPutOrDelete x with
        | false => rfl
        | true => exact absurd hc hx
      have hl : coalesceGo ((x :: r2) ++ [w]) s = coalesceGo (r2 ++ [w]) s := by
        simp [coalesceGo, hx2]
      have hr : coalesceGo (x :: r2) s = coalesceGo r2 s := by
        simp [coalesceGo, hx2]
      have hp : pdPairs (x :: r2) = pdPairs r2 := by
        simp [pdPairs, hx2]
      rw [hl, hr, ih s, hp]

theorem lastWriteFilter_sublist : ∀ l : List WriteInfo, (lastWriteFilter l).Sublist l := by
  intro l
  induction l with
  | nil => exact List.Sublist.refl []
  | cons w rest ih =>
    by_cases h : isPutOrDelete w = true ∧ ∀ u ∈ rest, isPutOrDelete u = true → wkey u ≠ wkey w
    · rw [lastWriteFilter, if_pos h]
      exact List.Sublist.cons₂ w ih
    · rw [lastWriteFilter, if_neg h]
      exact List.Sublist.cons w ih

theorem coalesce_eq_lastWriteFilter : ∀ l : List WriteInfo, coalesce l = lastWriteFilter l := by
  intro l
  induction l with
  | nil => rfl
  | cons x l2 ih =>
    have hrev : (x :: l2).reverse = l2.reverse ++ [x] := by simp
    rw [coalesce, hrev, coalesceGo_snoc x l2.reverse [], List.reverse_append]
    have hmem : wkey x ∈ pdPairs l2.reverse ↔
        ∃ u ∈ l2, isPutOrDelete u = true ∧ wkey u = wkey x := by
      rw [mem_pdPairs]
      constructor
      · intro ⟨u, hu, h1, h2⟩
        exact ⟨u, List.mem_reverse.mp hu, h1, h2⟩
      · intro ⟨u, hu, h1, h2⟩
        exact ⟨u, List.mem_reverse.mpr hu, h1, h2⟩
    by_cases hk : isPutOrDelete x = true ∧ ∀ u ∈ l2, isPutOrDelete u = true → wkey u ≠ wkey x
    · have hcond : isPutOrDelete x = true ∧ wkey x ∉ ([] : List (Bytes × Bytes)) ∧
          wkey x ∉ pdPairs l2.reverse := by
        refine ⟨hk.1, by simp, ?_⟩
        rw [hmem]
        intro ⟨u, hu, h1, h2⟩
        exact hk.2 u hu h1 h2
      rw [if_pos hcond, lastWriteFilter, if_pos hk]
      simp only [List.reverse_cons, List.reverse_nil, List.nil_append, List.singleton_append]
      rw [← coalesce, ih]
    · have hcond : ¬ (isPutOrDelete x = true ∧ wkey x ∉ ([] : List (Bytes × Bytes)) ∧
          wkey x ∉ pdPairs l2.reverse) := by
        intro ⟨h1, _, h3⟩
        rw [hmem] at h3
        apply hk
        refine ⟨h1, ?_⟩
        intro u hu hpu hwu
        exact h3 ⟨u, hu, hpu, hwu⟩
      rw [if_neg hcond, lastWriteFilter, if_neg hk]
      simp only [List.reverse_nil, List.nil_append]
      rw [← coalesce, ih]

/-- C1: the WriteBatch coalescing pass keeps, for each distinct (namespace,
key) pair, exactly the chronologically last Put or Delete of the batch,
skipping entries of any other kind entirely, and the surviving operations are
applied in their original batch order (the survivors form a subsequence of
the batch, applied left to right). -/
theorem writeBatch_coalesce_spec (db : DBState) (entries : List WriteInfo)
    (hr : db.ready = true) :
    coalesce entries = lastWriteFilter entries ∧
    (lastWriteFilter entries).Sublist entries ∧
    BoltDB.WriteBatch db entries =
      Except.ok { db with buckets := (lastWriteFilter entries).foldl applyOne db.buckets } := by
  refine ⟨coalesce_eq_lastWriteFilter entries, lastWriteFilter_sublist entries, ?_⟩
  simp [BoltDB.WriteBatch, hr, coalesce_eq_lastWriteFilter entries]

theorem writeBatch_coalesce_witness :
    BoltDB.WriteBatch ⟨true, []⟩
      [⟨WriteType.put, [1], [2], [10]⟩, ⟨WriteType.other, [1], [2], [15]⟩,
       ⟨WriteType.put, [1], [2], [20]⟩] =
      Except.ok ⟨true, [([1], [([2], [20])])]⟩ := by
  have h := (writeBatch_coalesce_spec ⟨true, []⟩
    [⟨WriteType.put, [1], [2], [10]⟩, ⟨WriteType.other, [1], [2], [15]⟩,
     ⟨WriteType.put, [1], [2], [20]⟩] rfl).2.2
  rw [h]
  decide
